import Mathlib

/-!
Verification of the Simple-BlockChain ledger core: a shallow embedding of
the transaction / block / blockchain operations from
`src/models/transaction.rs`, `src/models/block.rs` and
`src/core/blockchain.rs`, together with theorems settling the spec claims.

Modelling conventions:
* machine floats used for amounts are modelled as rationals;
* `u32`/`u64` values are modelled as `Nat`;
* Rust `HashMap` is modelled as an association list with first-match lookup
  and replace-in-place insertion;
* cryptographic and serde primitives (SHA-256, ed25519 keys/signatures,
  JSON serialisation of a transaction list, float formatting) are oracle
  fields of a `Crypto` structure, so every theorem is parametric in them;
* a Rust `panic!`/`unwrap` failure is modelled by `Option.none`;
* wall-clock timestamps are passed in explicitly.
-/

namespace SBC

/-- Association list lookup, first match wins (models `HashMap::get`). -/
def alistLookup {α : Type} (l : List (String × α)) (k : String) : Option α :=
  match l with
  | [] => none
  | (k', v) :: rest => if k' = k then some v else alistLookup rest k

/-- Lookup with a default value (models `get(..).unwrap_or(&d)`). -/
def alistLookupD {α : Type} (l : List (String × α)) (k : String) (d : α) : α :=
  (alistLookup l k).getD d

/-- Insert or replace a binding (models `HashMap::insert`). -/
def alistInsert {α : Type} (l : List (String × α)) (k : String) (v : α) :
    List (String × α) :=
  match l with
  | [] => [(k, v)]
  | (k', v') :: rest =>
    if k' = k then (k', v) :: rest else (k', v') :: alistInsert rest k v

/-- Model of `entry(k).or_insert(d)` followed by applying `f` to the stored value. -/
def alistAdjust {α : Type} (l : List (String × α)) (k : String) (d : α)
    (f : α → α) : List (String × α) :=
  match l with
  | [] => [(k, f d)]
  | (k', v') :: rest =>
    if k' = k then (k', f v') :: rest else (k', v') :: alistAdjust rest k d f

/-- Hex digit character for a value below 16, lowercase (models `hex::encode`). -/
def hexDigitCh (d : Nat) : Char :=
  if d < 10 then Char.ofNat (48 + d) else Char.ofNat (87 + d)

/-- Hex encoding of a byte list as a lowercase hex string (`hex::encode`). -/
def hexEncode (bs : List Nat) : String :=
  String.mk ((bs.map (fun b => [hexDigitCh (b / 16), hexDigitCh (b % 16)])).flatten)

/-- Value of a hex digit character, accepting both cases (`hex::decode`). -/
def hexDigitVal (c : Char) : Option Nat :=
  if 48 ≤ c.toNat ∧ c.toNat ≤ 57 then some (c.toNat - 48)
  else if 97 ≤ c.toNat ∧ c.toNat ≤ 102 then some (c.toNat - 87)
  else if 65 ≤ c.toNat ∧ c.toNat ≤ 70 then some (c.toNat - 55)
  else none

/-- Hex decoding of a character list into bytes; fails on odd length or a
non-hex character (`hex::decode`). -/
def hexDecodeList : List Char → Option (List Nat)
  | [] => some []
  | [_] => none
  | c1 :: c2 :: rest =>
    match hexDigitVal c1, hexDigitVal c2, hexDecodeList rest with
    | some h, some l, some bs => some ((16 * h + l) :: bs)
    | _, _, _ => none

/-- Hex decoding of a string (`hex::decode`). -/
def hexDecode (s : String) : Option (List Nat) :=
  hexDecodeList s.data

/-- Split a character list at every occurrence of `c`
(models Rust `str::split(c).collect::<Vec<_>>()`). -/
def splitCharList (c : Char) : List Char → List (List Char)
  | [] => [[]]
  | x :: xs =>
    if x = c then [] :: splitCharList c xs
    else
      match splitCharList c xs with
      | [] => [[x]]
      | h :: t => (x :: h) :: t

/-- Split a string at every occurrence of the character `c`. -/
def splitChar (c : Char) (s : String) : List String :=
  (splitCharList c s.data).map String.mk

/-- Decimal representation of a natural number, as produced by Rust's
`Display` for unsigned integers. -/
def natStr (n : Nat) : String :=
  if n = 0 then "0"
  else String.mk (((Nat.digits 10 n).reverse).map (fun d => Char.ofNat (48 + d)))

/-- A pending or committed value transfer
(`Transaction` in `src/models/transaction.rs`). -/
structure Transaction where
  sender : String
  recipient : String
  amount : ℚ
  signature : Option String
  timestamp : Nat
deriving DecidableEq, Repr

/-- Oracle bundle for the external primitives the ledger core calls:
SHA-256 hex digests, ed25519 key/signature (de)serialisation, signing and
verification, serde-JSON serialisation of a transaction list, and float
formatting. All theorems are parametric in this bundle. -/
structure Crypto where
  PubKey : Type
  SecKey : Type
  Sig : Type
  sha256hex : String → String
  serTxs : List Transaction → String
  fmtAmount : ℚ → String
  pubKeyBytes : PubKey → List Nat
  secKeyBytes : SecKey → List Nat
  sigBytes : Sig → List Nat
  pubKeyFromBytes : List Nat → Option PubKey
  secKeyFromBytes : List Nat → Option SecKey
  sigFromBytes : List Nat → Option Sig
  sign : SecKey → PubKey → String → Sig
  verify : PubKey → String → Sig → Bool

/-- An ed25519 keypair (`ed25519_dalek::Keypair`). -/
structure KeyPair (C : Crypto) where
  secret : C.SecKey
  public : C.PubKey

/-- Model of `Transaction::new` (the current time is passed in explicitly). -/
def Transaction.new (sender recipient : String) (amount : ℚ) (now : Nat) :
    Transaction :=
  { sender := sender, recipient := recipient, amount := amount,
    signature := none, timestamp := now }

/-- Model of `Transaction::calculate_hash`: SHA-256 over the concatenation of
sender, recipient, amount and timestamp renderings. -/
def Transaction.calculate_hash (C : Crypto) (tx : Transaction) : String :=
  C.sha256hex (tx.sender ++ tx.recipient ++ C.fmtAmount tx.amount ++
    natStr tx.timestamp)

/-- Model of `Transaction::sign`: refuses the genesis sentinel sender, otherwise
stores the hex-encoded signature over the content hash. -/
def Transaction.sign (C : Crypto) (kp : KeyPair C) (tx : Transaction) :
    Except String Transaction :=
  if tx.sender = "0" then .error "Cannot sign genesis transaction"
  else
    let s := C.sign kp.secret kp.public (Transaction.calculate_hash C tx)
    .ok { tx with signature := some (hexEncode (C.sigBytes s)) }

/-- Model of `Transaction::is_valid`. The identity registry (the parsed content of
`accounts.json`, mapping addresses to `secret_hex:public_hex` strings) is
passed in explicitly; the Rust code reads it from disk. The result is
`none` exactly when the Rust code panics (the `.unwrap()` on the hex decode
of the stored public key part). -/
def Transaction.is_valid (C : Crypto) (registry : List (String × String))
    (tx : Transaction) : Option Bool :=
  if tx.sender = "0" then some true
  else
    match tx.signature with
    | none => some false
    | some sig =>
      match alistLookup registry tx.sender with
      | none => some false
      | some public_key_data =>
        let parts := splitChar ':' public_key_data
        if parts.length ≠ 2 then some false
        else
          match hexDecode (parts.getD 1 "") with
          | none => none
          | some pkBytes =>
            match C.pubKeyFromBytes pkBytes with
            | none => some false
            | some public_key =>
              match hexDecode sig with
              | none => some false
              | some sigB =>
                match C.sigFromBytes sigB with
                | none => some false
                | some signature =>
                  some (C.verify public_key
                    (Transaction.calculate_hash C tx) signature)

/-- A committed batch of transactions (`Block` in `src/models/block.rs`). -/
structure Block where
  index : Nat
  timestamp : Nat
  transactions : List Transaction
  previous_hash : String
  hash : String
  validator : String
deriving DecidableEq, Repr

/-- The string hashed by `Block::calculate_hash`: concatenation of index,
timestamp, serde-JSON of the transaction list, previous hash and validator. -/
def Block.hashInput (C : Crypto) (b : Block) : String :=
  natStr b.index ++ natStr b.timestamp ++ C.serTxs b.transactions ++
    b.previous_hash ++ b.validator

/-- Model of `Block::calculate_hash`: SHA-256 hex digest of `hashInput`. -/
def Block.calculate_hash (C : Crypto) (b : Block) : String :=
  C.sha256hex (Block.hashInput C b)

/-- Model of `Block::new`: assigns the (explicitly passed) current time and
eagerly computes and stores the hash. -/
def Block.new (C : Crypto) (index : Nat) (transactions : List Transaction)
    (previous_hash validator : String) (now : Nat) : Block :=
  let b : Block :=
    { index := index, timestamp := now, transactions := transactions,
      previous_hash := previous_hash, hash := "", validator := validator }
  { b with hash := Block.calculate_hash C b }

/-- The ledger state (`Blockchain` in `src/core/blockchain.rs`). The
`public_keys` and `keypairs` maps carry the serde `#[serde(skip)]`
attribute in the source, so they are not part of the persisted record. -/
structure Blockchain (C : Crypto) where
  chain : List Block
  pending_transactions : List Transaction
  accounts : List (String × ℚ)
  public_keys : List (String × C.PubKey)
  validators : List (String × Bool)
  keypairs : List (String × KeyPair C)

/-- Model of `Blockchain::create_genesis_block`: seals the current pending pool into
block 0 with previous hash `"0"` and clears the pool. -/
def Blockchain.create_genesis_block (C : Crypto) (bc : Blockchain C)
    (genesis_address : String) (now : Nat) : Blockchain C :=
  let genesis_block :=
    Block.new C 0 bc.pending_transactions "0" genesis_address now
  { bc with chain := bc.chain ++ [genesis_block], pending_transactions := [] }

/-- Model of `Blockchain::new`: empty state, one genesis transaction of amount 1000
to the seed address, its balance set directly, then the genesis block. The
two wall-clock reads (transaction and block timestamps) are explicit. -/
def Blockchain.new (C : Crypto) (genesis_address : String)
    (txTime blkTime : Nat) : Blockchain C :=
  let blockchain : Blockchain C :=
    { chain := [], pending_transactions := [], accounts := [],
      public_keys := [], validators := [], keypairs := [] }
  let genesis_transaction := Transaction.new "0" genesis_address 1000 txTime
  let bc1 := { blockchain with
    pending_transactions :=
      blockchain.pending_transactions ++ [genesis_transaction],
    accounts := alistInsert blockchain.accounts genesis_address 1000 }
  Blockchain.create_genesis_block C bc1 genesis_address blkTime

/-- Model of `Blockchain::get_latest_block`; `none` models the `expect` panic on an
empty chain. -/
def Blockchain.get_latest_block (C : Crypto) (bc : Blockchain C) :
    Option Block :=
  bc.chain.getLast?

/-- Model of `Blockchain::add_transaction`: for a non-genesis sender, checks the
sender's last-committed balance and signs the transaction; then appends to
the pending pool. Returns the result together with the post-state. -/
def Blockchain.add_transaction (C : Crypto) (bc : Blockchain C)
    (transaction : Transaction) (keypair : KeyPair C) :
    Except String Unit × Blockchain C :=
  if transaction.sender ≠ "0" then
    let sender_balance := alistLookupD bc.accounts transaction.sender 0
    if sender_balance < transaction.amount then
      (.error "Insufficient balance for transaction", bc)
    else
      match Transaction.sign C keypair transaction with
      | .error e => (.error e, bc)
      | .ok tx' =>
        (.ok Unit.unit, { bc with
          pending_transactions := bc.pending_transactions ++ [tx'] })
  else
    (.ok Unit.unit, { bc with
      pending_transactions := bc.pending_transactions ++ [transaction] })

/-- Model of `Blockchain::register_keypair`: derives the address as the hex encoding
of the public key, stores public key and keypair, and creates a zero
balance if absent. Returns the address and the post-state. -/
def Blockchain.register_keypair (C : Crypto) (bc : Blockchain C)
    (keypair : KeyPair C) : String × Blockchain C :=
  let address := hexEncode (C.pubKeyBytes keypair.public)
  (address, { bc with
    public_keys := alistInsert bc.public_keys address keypair.public,
    keypairs := alistInsert bc.keypairs address keypair,
    accounts := alistAdjust bc.accounts address 0 id })

/-- Model of `Blockchain::add_validator`: requires a registered public key, then
sets the validator flag to true. Returns the result with the post-state. -/
def Blockchain.add_validator (C : Crypto) (bc : Blockchain C)
    (address : String) : Except String Unit × Blockchain C :=
  if (alistLookup bc.public_keys address).isNone then
    (.error ("Address " ++ address ++ " is not registered"), bc)
  else
    (.ok Unit.unit, { bc with validators := alistInsert bc.validators address true })

/-- Model of `Blockchain::is_validator`: present in `validators` with value true. -/
def Blockchain.is_validator (C : Crypto) (bc : Blockchain C)
    (address : String) : Bool :=
  alistLookupD bc.validators address false

/-- One step of `Blockchain::apply_transactions`: debit a non-genesis
sender, credit the recipient, absent addresses being created at balance 0
first (`entry(..).or_insert(0.0)`). -/
def applyTx (accounts : List (String × ℚ)) (tx : Transaction) :
    List (String × ℚ) :=
  let accounts' :=
    if tx.sender ≠ "0" then
      alistAdjust accounts tx.sender 0 (fun b => b - tx.amount)
    else accounts
  alistAdjust accounts' tx.recipient 0 (fun b => b + tx.amount)

/-- Model of `Blockchain::apply_transactions`: fold `applyTx` over the pending pool
in pool order. -/
def Blockchain.apply_transactions (C : Crypto) (bc : Blockchain C) :
    Blockchain C :=
  { bc with accounts := bc.pending_transactions.foldl applyTx bc.accounts }

/-- Model of `Blockchain::create_block`: validator authorization check, empty-pool
check, then a new block over the full pending pool is appended, balances
are applied and the pool is cleared. The outer `none` models the
`get_latest_block` panic on an empty chain; errors return the unchanged
state. -/
def Blockchain.create_block (C : Crypto) (bc : Blockchain C)
    (validator_address : String) (now : Nat) :
    Option (Except String Block × Blockchain C) :=
  if ¬ Blockchain.is_validator C bc validator_address then
    some (.error "Only authorized validators can create blocks", bc)
  else if bc.pending_transactions.isEmpty then
    some (.error "No pending transactions to include in block", bc)
  else
    match Blockchain.get_latest_block C bc with
    | none => none
    | some latest =>
      let block := Block.new C bc.chain.length bc.pending_transactions
        latest.hash validator_address now
      let bc1 := { bc with chain := bc.chain ++ [block] }
      let bc2 := Blockchain.apply_transactions C bc1
      some (.ok block, { bc2 with pending_transactions := [] })

/-- Inner transaction loop of `Blockchain::validate_chain`: `some false` on
the first invalid transaction, `none` if `is_valid` panics there. -/
def txsAllValid (C : Crypto) (registry : List (String × String)) :
    List Transaction → Option Bool
  | [] => some true
  | tx :: rest =>
    match Transaction.is_valid C registry tx with
    | none => none
    | some false => some false
    | some true => txsAllValid C registry rest

/-- Body of the `validate_chain` loop from the second block on: `prev` is
block `i-1`, the list holds blocks `i, i+1, ...`. -/
def validateFrom (C : Crypto) (registry : List (String × String))
    (validators : List (String × Bool)) : Block → List Block → Option Bool
  | _, [] => some true
  | prev, current :: rest =>
    if current.hash ≠ Block.calculate_hash C current then some false
    else if current.previous_hash ≠ prev.hash then some false
    else
      match txsAllValid C registry current.transactions with
      | none => none
      | some false => some false
      | some true =>
        if alistLookupD validators current.validator false = false then
          some false
        else validateFrom C registry validators current rest

/-- Model of `Blockchain::validate_chain`: an empty chain is valid, otherwise every
block from position 1 on is checked against its predecessor. The identity
registry read from disk by `Transaction::is_valid` is a parameter. -/
def Blockchain.validate_chain (C : Crypto)
    (registry : List (String × String)) (bc : Blockchain C) : Option Bool :=
  match bc.chain with
  | [] => some true
  | b0 :: rest => validateFrom C registry bc.validators b0 rest

/-- Model of `Blockchain::get_account_balance`. -/
def Blockchain.get_account_balance (C : Crypto) (bc : Blockchain C)
    (address : String) : ℚ :=
  alistLookupD bc.accounts address 0

/-- The persisted ledger record: exactly the serde-serialised fields of
`Blockchain` (the `public_keys` and `keypairs` maps are `#[serde(skip)]`).
The JSON text layer is modelled as this structured value. -/
structure SavedLedger where
  chain : List Block
  pending_transactions : List Transaction
  accounts : List (String × ℚ)
  validators : List (String × Bool)

/-- Model of `Blockchain::save_to_file`: the ledger record plus the accounts file,
one `secret_hex:public_hex` entry per stored keypair. -/
def Blockchain.save_to_file (C : Crypto) (bc : Blockchain C) :
    SavedLedger × List (String × String) :=
  (⟨bc.chain, bc.pending_transactions, bc.accounts, bc.validators⟩,
   bc.keypairs.map (fun kv =>
     (kv.1, hexEncode (C.secKeyBytes kv.2.secret) ++ ":" ++
       hexEncode (C.pubKeyBytes kv.2.public))))

/-- Keypair-merging loop of `Blockchain::load_from_file`: each accounts
file entry is split at `:`, hex-decoded and reconstructed; any malformed
entry fails the entire load. -/
def loadKeypairs (C : Crypto) : Blockchain C → List (String × String) →
    Except String (Blockchain C)
  | bc, [] => .ok bc
  | bc, (address, keypair_str) :: rest =>
    let parts := splitChar ':' keypair_str
    if parts.length ≠ 2 then
      .error ("Invalid keypair format for address: " ++ address)
    else
      match hexDecode (parts.getD 0 "") with
      | none => .error ("Invalid secret key hex for address: " ++ address)
      | some secret_bytes =>
        match hexDecode (parts.getD 1 "") with
        | none => .error ("Invalid public key hex for address: " ++ address)
        | some public_bytes =>
          match C.pubKeyFromBytes public_bytes with
          | none => .error ("Invalid public key for address: " ++ address)
          | some public_key =>
            match C.secKeyFromBytes secret_bytes with
            | none => .error ("Invalid secret key for address: " ++ address)
            | some secret_key =>
              loadKeypairs C
                { bc with keypairs :=
                    alistInsert bc.keypairs address ⟨secret_key, public_key⟩ }
                rest

/-- Model of `Blockchain::load_from_file`: parse the ledger record (the serde-skipped
maps deserialise to their empty defaults), then merge the accounts file. -/
def Blockchain.load_from_file (C : Crypto) (saved : SavedLedger)
    (accountsFile : List (String × String)) : Except String (Blockchain C) :=
  let blockchain : Blockchain C :=
    { chain := saved.chain, pending_transactions := saved.pending_transactions,
      accounts := saved.accounts, public_keys := [],
      validators := saved.validators, keypairs := [] }
  loadKeypairs C blockchain accountsFile

/-- States reachable from `Blockchain::new` through the public mutating
operations (the read-only operations do not change state). -/
inductive Reachable (C : Crypto) : Blockchain C → Prop where
  | new (genesis_address : String) (txTime blkTime : Nat) :
      Reachable C (Blockchain.new C genesis_address txTime blkTime)
  | add_transaction {bc : Blockchain C} (tx : Transaction) (kp : KeyPair C) :
      Reachable C bc →
      Reachable C (Blockchain.add_transaction C bc tx kp).2
  | register_keypair {bc : Blockchain C} (kp : KeyPair C) :
      Reachable C bc →
      Reachable C (Blockchain.register_keypair C bc kp).2
  | add_validator {bc : Blockchain C} (address : String) :
      Reachable C bc →
      Reachable C (Blockchain.add_validator C bc address).2
  | create_block {bc bc' : Blockchain C} {r : Except String Block}
      (validator_address : String) (now : Nat) :
      Reachable C bc →
      Blockchain.create_block C bc validator_address now = some (r, bc') →
      Reachable C bc'

/-- The per-block check performed by `validate_chain` for a block `current`
with predecessor `prev`: stored hash matches the recomputed hash, the link
to the predecessor holds, every transaction is valid, and the block's
validator is authorized in the current validator table. -/
def blockOk (C : Crypto) (registry : List (String × String))
    (validators : List (String × Bool)) (prev current : Block) : Prop :=
  current.hash = Block.calculate_hash C current ∧
  current.previous_hash = prev.hash ∧
  (∀ tx ∈ current.transactions,
    Transaction.is_valid C registry tx = some true) ∧
  alistLookupD validators current.validator false = true

/-- A small concrete oracle bundle used to instantiate the parametric
theorems on concrete inputs: keys, secrets and signatures are naturals
carried as singleton byte lists, the digest is the identity and
verification always succeeds. -/
@[reducible] def testCrypto : Crypto :=
  { PubKey := Nat, SecKey := Nat, Sig := Nat,
    sha256hex := id, serTxs := fun _ => "", fmtAmount := fun _ => "",
    pubKeyBytes := fun n => [n], secKeyBytes := fun n => [n],
    sigBytes := fun n => [n],
    pubKeyFromBytes := fun l => match l with | [b] => some b | _ => none,
    secKeyFromBytes := fun l => match l with | [b] => some b | _ => none,
    sigFromBytes := fun l => match l with | [b] => some b | _ => none,
    sign := fun _ _ _ => 0, verify := fun _ _ _ => true }

/-- A concrete keypair for the test oracle. -/
def testKeyPair : KeyPair testCrypto := ⟨(3 : Nat), (5 : Nat)⟩

/-- A concrete sentinel-sender (genesis) transaction. -/
def txGen : Transaction := Transaction.new "0" "dest" 3 9

/-- A concrete non-genesis transaction carrying a signature, whose sender's
registry entry below has a non-hex public-key part. -/
def txBadReg : Transaction :=
  { sender := "aa", recipient := "bb", amount := 1,
    signature := some "cc", timestamp := 0 }

/-- A concrete freshly initialised ledger. -/
def bcNew : Blockchain testCrypto := Blockchain.new testCrypto "gaddr" 5 6

/-- A concrete ledger with one authorized validator and one pending
transaction, on which `create_block` succeeds. -/
def bcCommit : Blockchain testCrypto :=
  { chain := [Block.new testCrypto 0 [] "0" "g" 0],
    pending_transactions := [txGen], accounts := [],
    public_keys := [], validators := [("v", true)], keypairs := [] }

/-- The block `create_block` produces from `bcCommit` at time 3. -/
def bcCommitBlock : Block :=
  Block.new testCrypto 1 [txGen] (Block.new testCrypto 0 [] "0" "g" 0).hash
    "v" 3

/-- The post-state `create_block` produces from `bcCommit` at time 3. -/
def bcCommitAfter : Blockchain testCrypto :=
  { chain := bcCommit.chain ++ [bcCommitBlock], pending_transactions := [],
    accounts := [("dest", 3)], public_keys := [],
    validators := [("v", true)], keypairs := [] }

/-- Variant of `bcNew` with one authorized validator and, as created, an empty pool. -/
def bcNewV : Blockchain testCrypto :=
  { bcNew with validators := [("v", true)] }

/-- A concrete non-genesis transaction from an unfunded sender. -/
def txOver : Transaction := Transaction.new "s" "r" 1 0

/-- A concrete ledger whose in-memory public-key registry is nonempty while
its keypair store is empty. -/
def bcPk : Blockchain testCrypto :=
  { chain := [], pending_transactions := [], accounts := [],
    public_keys := [("aa", (5 : Nat))], validators := [], keypairs := [] }

/-- A concrete ledger with one stored keypair, used to instantiate the
persistence round-trip. -/
def bcKp : Blockchain testCrypto :=
  { chain := [], pending_transactions := [], accounts := [("x", 7)],
    public_keys := [], validators := [("x", true)],
    keypairs := [("05", testKeyPair)] }

/-- Two concrete blocks identical in everything but the validator field. -/
def blkA : Block :=
  { index := 0, timestamp := 0, transactions := [], previous_hash := "",
    hash := "", validator := "a" }

/-- The companion block of `blkA` with a different validator. -/
def blkB : Block := { blkA with validator := "b" }

/-- Claim C4: `create_block` fails with the `NotAuthorized` error whenever
the validator address is not present in `validators` with value true, and
with the `EmptyPool` error when the address is authorized but the pending
pool is empty; in both cases the returned state is the unchanged input
state (chain, pool and accounts untouched). -/
theorem create_block_error_spec (C : Crypto) (bc : Blockchain C)
    (v : String) (now : Nat) :
    (Blockchain.is_validator C bc v = false →
      Blockchain.create_block C bc v now =
        some (.error "Only authorized validators can create blocks", bc)) ∧
    (Blockchain.is_validator C bc v = true → bc.pending_transactions = [] →
      Blockchain.create_block C bc v now =
        some (.error "No pending transactions to include in block", bc)) := by
  constructor
  · intro h
    simp [Blockchain.create_block, h]
  · intro h hp
    simp [Blockchain.create_block, h, hp]

/-- Witness for C4: on the fresh ledger `bcNew` the unregistered address
`"v"` is rejected as unauthorized, and on `bcNewV` (authorized validator,
empty pool) the commit is rejected for an empty pool; both leave the state
unchanged. -/
theorem create_block_error_witness :
    (Blockchain.create_block testCrypto bcNew "v" 7 =
      some (.error "Only authorized validators can create blocks", bcNew)) ∧
    (Blockchain.create_block testCrypto bcNewV "v" 7 =
      some (.error "No pending transactions to include in block", bcNewV)) :=
  ⟨(create_block_error_spec testCrypto bcNew "v" 7).1 rfl,
   (create_block_error_spec testCrypto bcNewV "v" 7).2 rfl rfl⟩

/-- Claim C5: for a non-genesis sender, `add_transaction` fails if and only
if the amount exceeds the sender's last-committed balance (0 when absent);
the failure is the `InsufficientBalance` error with the state unchanged,
and on success the transaction is signed and appended to the pool while
accounts (and everything else) stay untouched. -/
theorem add_transaction_overdraft_spec (C : Crypto) (bc : Blockchain C)
    (tx : Transaction) (kp : KeyPair C) (h : tx.sender ≠ "0") :
    ((∃ e, (Blockchain.add_transaction C bc tx kp).1 = .error e) ↔
      alistLookupD bc.accounts tx.sender 0 < tx.amount) ∧
    (alistLookupD bc.accounts tx.sender 0 < tx.amount →
      Blockchain.add_transaction C bc tx kp =
        (.error "Insufficient balance for transaction", bc)) ∧
    (¬ alistLookupD bc.accounts tx.sender 0 < tx.amount →
      ∃ tx', Transaction.sign C kp tx = .ok tx' ∧ tx'.signature.isSome ∧
        Blockchain.add_transaction C bc tx kp =
          (.ok Unit.unit, { bc with
            pending_transactions := bc.pending_transactions ++ [tx'] })) := by
  have hsign : Transaction.sign C kp tx =
      .ok { tx with signature := some (hexEncode (C.sigBytes
        (C.sign kp.secret kp.public (Transaction.calculate_hash C tx)))) } := by
    simp [Transaction.sign, h]
  refine ⟨⟨?_, ?_⟩, ?_, ?_⟩
  · rintro ⟨e, he⟩
    by_contra hb
    simp [Blockchain.add_transaction, h, hb, hsign] at he
  · intro hb
    exact ⟨"Insufficient balance for transaction",
      by simp [Blockchain.add_transaction, h, hb]⟩
  · intro hb
    simp [Blockchain.add_transaction, h, hb]
  · intro hb
    refine ⟨_, hsign, rfl, ?_⟩
    simp [Blockchain.add_transaction, h, hb, hsign]

/-- Witness for C5: submitting a transfer of amount 1 from the unfunded
address `"s"` on the fresh ledger `bcNew` returns the insufficient-balance
error and leaves the whole state (in particular the pending pool)
unchanged. -/
theorem add_transaction_overdraft_witness :
    Blockchain.add_transaction testCrypto bcNew txOver testKeyPair =
      (.error "Insufficient balance for transaction", bcNew) :=
  (add_transaction_overdraft_spec testCrypto bcNew txOver testKeyPair
    (by decide)).2.1 (by decide)

/-- Counterexample to claim C6 as stated: submitting the sentinel-sender
transaction `txGen` to `add_transaction` together with a signing key does
not fail with a genesis-signing error — it succeeds, and the transaction is
appended to the pending pool, still unsigned. -/
theorem add_transaction_genesis_counterexample :
    Blockchain.add_transaction testCrypto bcNew txGen testKeyPair =
      (.ok Unit.unit, { bcNew with
        pending_transactions := bcNew.pending_transactions ++ [txGen] }) ∧
    txGen.signature = none :=
  ⟨rfl, rfl⟩

/-- Claim C6 (amended): a sentinel-sender transaction submitted to
`add_transaction` bypasses both the balance check and the signing step and
is appended unsigned to the pending pool with success; the
`GenesisSigningError` arises only from `Transaction::sign` itself, which
`add_transaction` never invokes on a sentinel sender. -/
theorem add_transaction_genesis_spec (C : Crypto) (bc : Blockchain C)
    (tx : Transaction) (kp : KeyPair C) (h : tx.sender = "0") :
    Blockchain.add_transaction C bc tx kp =
      (.ok Unit.unit, { bc with
        pending_transactions := bc.pending_transactions ++ [tx] }) ∧
    Transaction.sign C kp tx = .error "Cannot sign genesis transaction" := by
  constructor
  · simp [Blockchain.add_transaction, h]
  · simp [Transaction.sign, h]

/-- Witness for the amended C6: the concrete sentinel transaction `txGen`
is admitted unsigned on `bcNew`, while signing it directly fails. -/
theorem add_transaction_genesis_witness :
    Blockchain.add_transaction testCrypto bcNew txGen testKeyPair =
      (.ok Unit.unit, { bcNew with
        pending_transactions := bcNew.pending_transactions ++ [txGen] }) ∧
    Transaction.sign testCrypto testKeyPair txGen =
      .error "Cannot sign genesis transaction" :=
  add_transaction_genesis_spec testCrypto bcNew txGen testKeyPair rfl

/-- Claim C3: whenever `create_block` succeeds, the new block carries the
pre-commit chain length as index, the full pending pool in pool order, the
stored hash of the pre-commit last block as `previous_hash` and the
supplied validator address; the post-state appends exactly that block,
folds every committed transaction over the accounts table sequentially in
pool order (`applyTx` debits each non-genesis sender, credits each
recipient, creating absent addresses at balance 0), and empties the pool. -/
theorem create_block_success_spec (C : Crypto) (bc : Blockchain C)
    (v : String) (now : Nat) (blk : Block) (bc' : Blockchain C)
    (h : Blockchain.create_block C bc v now = some (.ok blk, bc')) :
    blk.index = bc.chain.length ∧
    blk.transactions = bc.pending_transactions ∧
    blk.validator = v ∧
    blk.timestamp = now ∧
    (∃ latest, bc.chain.getLast? = some latest ∧
      blk.previous_hash = latest.hash) ∧
    bc'.chain = bc.chain ++ [blk] ∧
    bc'.pending_transactions = [] ∧
    bc'.accounts = bc.pending_transactions.foldl applyTx bc.accounts ∧
    bc'.public_keys = bc.public_keys ∧
    bc'.validators = bc.validators ∧
    bc'.keypairs = bc.keypairs := by
  unfold Blockchain.create_block at h
  split at h
  · simp at h
  · split at h
    · simp at h
    · cases hg : Blockchain.get_latest_block C bc with
      | none => rw [hg] at h; simp at h
      | some latest =>
        rw [hg] at h
        simp only [Option.some.injEq, Prod.mk.injEq] at h
        obtain ⟨hb, hs⟩ := h
        have hblk : blk = Block.new C bc.chain.length bc.pending_transactions
            latest.hash v now := (Except.ok.inj hb).symm
        subst hs
        refine ⟨?_, ?_, ?_, ?_, ⟨latest, hg, ?_⟩, ?_, ?_, ?_, ?_, ?_, ?_⟩ <;>
          simp [hblk, Block.new, Blockchain.apply_transactions]

/-- Witness for C3: committing the one-transaction pool of `bcCommit` with
validator `"v"` at time 3 yields exactly `bcCommitBlock` and the post-state
`bcCommitAfter`, whose fields satisfy every conjunct of the postcondition. -/
theorem create_block_success_witness :
    bcCommitBlock.index = bcCommit.chain.length ∧
    bcCommitBlock.transactions = bcCommit.pending_transactions ∧
    bcCommitBlock.validator = "v" ∧
    bcCommitAfter.pending_transactions = [] := by
  have hv : Blockchain.is_validator testCrypto bcCommit "v" = true := rfl
  have hg : Blockchain.get_latest_block testCrypto bcCommit =
      some (Block.new testCrypto 0 [] "0" "g" 0) := rfl
  have h : Blockchain.create_block testCrypto bcCommit "v" 3 =
      some (.ok bcCommitBlock, bcCommitAfter) := by
    unfold Blockchain.create_block
    rw [hv, hg]
    simp [bcCommit, bcCommitBlock, bcCommitAfter, Blockchain.apply_transactions,
      applyTx, alistAdjust, txGen, Transaction.new]
  have hs := create_block_success_spec testCrypto bcCommit "v" 3
    bcCommitBlock bcCommitAfter h
  exact ⟨hs.1, hs.2.1, hs.2.2.1, hs.2.2.2.2.2.2.1⟩

/-- Claim C7 evaluated at the failing input: a registry entry whose
public-key part is not valid hex makes `Transaction::is_valid` panic (the
modelled result `none`) instead of returning false. -/
theorem is_valid_panic_on_bad_registry_hex :
    Transaction.is_valid testCrypto [("aa", "00:zz")] txBadReg = none := rfl

/-- Claim C2: a sentinel-sender transaction is unconditionally valid; a
non-genesis transaction is reported valid exactly when a signature is
present, the sender has a registry entry whose public-key part decodes to a
key, and the decoded signature verifies under that key over the
transaction's content hash. -/
theorem is_valid_spec (C : Crypto) (registry : List (String × String))
    (tx : Transaction) :
    (tx.sender = "0" → Transaction.is_valid C registry tx = some true) ∧
    (tx.sender ≠ "0" →
      (Transaction.is_valid C registry tx = some true ↔
        ∃ sig data pkBytes pk sigB s,
          tx.signature = some sig ∧
          alistLookup registry tx.sender = some data ∧
          (splitChar ':' data).length = 2 ∧
          hexDecode ((splitChar ':' data).getD 1 "") = some pkBytes ∧
          C.pubKeyFromBytes pkBytes = some pk ∧
          hexDecode sig = some sigB ∧
          C.sigFromBytes sigB = some s ∧
          C.verify pk (Transaction.calculate_hash C tx) s = true)) := by
  constructor
  · intro h
    simp [Transaction.is_valid, h]
  · intro h
    unfold Transaction.is_valid
    rw [if_neg h]
    constructor
    · intro hv
      cases hsig : tx.signature with
      | none => simp [hsig] at hv
      | some sig =>
        simp only [hsig] at hv
        cases hlook : alistLookup registry tx.sender with
        | none => simp [hlook] at hv
        | some data =>
          simp only [hlook] at hv
          by_cases hlen : (splitChar ':' data).length ≠ 2
          · rw [if_pos hlen] at hv; simp at hv
          · rw [if_neg hlen] at hv
            push_neg at hlen
            cases hpkb : hexDecode ((splitChar ':' data).getD 1 "") with
            | none => rw [hpkb] at hv; simp at hv
            | some pkBytes =>
              simp only [hpkb] at hv
              cases hpk : C.pubKeyFromBytes pkBytes with
              | none => simp [hpk] at hv
              | some pk =>
                simp only [hpk] at hv
                cases hsb : hexDecode sig with
                | none => simp [hsb] at hv
                | some sigB =>
                  simp only [hsb] at hv
                  cases hs : C.sigFromBytes sigB with
                  | none => simp [hs] at hv
                  | some s =>
                    simp only [hs, Option.some.injEq] at hv
                    exact ⟨sig, data, pkBytes, pk, sigB, s, rfl, rfl,
                      hlen, hpkb, hpk, hsb, hs, hv⟩
    · rintro ⟨sig, data, pkBytes, pk, sigB, s, hsig, hlook, hlen, hpkb,
        hpk, hsb, hs, hver⟩
      simp only [hsig, hlook]
      rw [if_neg (by rw [hlen]; exact fun hc => hc rfl)]
      simp only [hpkb, hpk, hsb, hs, hver]

/-- Witness for C2: the concrete sentinel-sender transaction `txGen` is
reported valid against the empty registry. -/
theorem is_valid_genesis_witness :
    Transaction.is_valid testCrypto [] txGen = some true :=
  (is_valid_spec testCrypto [] txGen).1 rfl

/-- The transaction loop of `validate_chain` reports `some true` exactly
when every transaction in the list is reported valid. -/
theorem txsAllValid_eq_true_iff (C : Crypto) (reg : List (String × String))
    (l : List Transaction) : txsAllValid C reg l = some true ↔
      ∀ tx ∈ l, Transaction.is_valid C reg tx = some true := by
  induction l with
  | nil => simp [txsAllValid]
  | cons tx rest ih =>
    cases hv : Transaction.is_valid C reg tx with
    | none => simp [txsAllValid, hv]
    | some b => cases b <;> simp [txsAllValid, hv, ih]

/-- The transaction loop cannot panic when no individual check panics. -/
theorem txsAllValid_ne_none (C : Crypto) (reg : List (String × String))
    (l : List Transaction)
    (h : ∀ tx ∈ l, Transaction.is_valid C reg tx ≠ none) :
    txsAllValid C reg l ≠ none := by
  induction l with
  | nil => simp [txsAllValid]
  | cons tx rest ih =>
    cases hv : Transaction.is_valid C reg tx with
    | none => exact absurd hv (h tx (by simp))
    | some b =>
      cases b
      · simp [txsAllValid, hv]
      · simp only [txsAllValid, hv]
        exact ih (fun t ht => h t (by simp [ht]))

/-- The main loop of `validate_chain` succeeds exactly when every
consecutive pair of blocks passes `blockOk`. -/
theorem validateFrom_eq_true_iff (C : Crypto) (reg : List (String × String))
    (vals : List (String × Bool)) (prev : Block) (rest : List Block) :
    validateFrom C reg vals prev rest = some true ↔
      List.Chain (blockOk C reg vals) prev rest := by
  induction rest generalizing prev with
  | nil => simp [validateFrom]
  | cons cur t ih =>
    rw [List.chain_cons]
    unfold validateFrom
    by_cases h1 : cur.hash = Block.calculate_hash C cur
    · rw [if_neg (fun hn => hn h1)]
      by_cases h2 : cur.previous_hash = prev.hash
      · rw [if_neg (fun hn => hn h2)]
        cases hT : txsAllValid C reg cur.transactions with
        | none =>
          simp only [hT]
          constructor
          · intro h; exact absurd h (by simp)
          · rintro ⟨⟨_, _, htx, _⟩, _⟩
            rw [(txsAllValid_eq_true_iff C reg _).2 htx] at hT
            simp at hT
        | some b =>
          cases b
          · simp only [hT]
            constructor
            · intro h; exact absurd h (by simp)
            · rintro ⟨⟨_, _, htx, _⟩, _⟩
              rw [(txsAllValid_eq_true_iff C reg _).2 htx] at hT
              simp at hT
          · simp only [hT]
            by_cases h4 : alistLookupD vals cur.validator false = false
            · rw [if_pos h4]
              constructor
              · intro h; exact absurd h (by simp)
              · rintro ⟨⟨_, _, _, h4'⟩, _⟩
                rw [h4'] at h4
                simp at h4
            · rw [if_neg h4]
              rw [ih cur]
              have h4' : alistLookupD vals cur.validator false = true := by
                revert h4; cases alistLookupD vals cur.validator false <;> simp
              have hOk : blockOk C reg vals prev cur :=
                ⟨h1, h2, (txsAllValid_eq_true_iff C reg _).1 hT, h4'⟩
              exact ⟨fun hc => ⟨hOk, hc⟩, fun hc => hc.2⟩
      · rw [if_pos h2]
        constructor
        · intro h; exact absurd h (by simp)
        · rintro ⟨⟨_, hl, _, _⟩, _⟩; exact absurd hl h2
    · rw [if_pos h1]
      constructor
      · intro h; exact absurd h (by simp)
      · rintro ⟨⟨hh, _, _, _⟩, _⟩; exact absurd hh h1

/-- The main loop of `validate_chain` cannot panic when no transaction
check in the remaining blocks panics. -/
theorem validateFrom_ne_none (C : Crypto) (reg : List (String × String))
    (vals : List (String × Bool)) (prev : Block) (rest : List Block)
    (h : ∀ b ∈ rest, ∀ tx ∈ b.transactions,
      Transaction.is_valid C reg tx ≠ none) :
    validateFrom C reg vals prev rest ≠ none := by
  induction rest generalizing prev with
  | nil => simp [validateFrom]
  | cons cur t ih =>
    unfold validateFrom
    by_cases h1 : cur.hash ≠ Block.calculate_hash C cur
    · simp [h1]
    · rw [if_neg h1]
      by_cases h2 : cur.previous_hash ≠ prev.hash
      · simp [h2]
      · rw [if_neg h2]
        cases hT : txsAllValid C reg cur.transactions with
        | none =>
          exact absurd hT (txsAllValid_ne_none C reg _ (h cur (by simp)))
        | some b =>
          cases b
          · simp [hT]
          · simp only [hT]
            by_cases h4 : alistLookupD vals cur.validator false = false
            · simp [h4]
            · rw [if_neg h4]
              exact ih cur (fun b hb => h b (by simp [hb]))

/-- Claim C1: `validate_chain` is trivially true on a chain of length 0 or
1; on longer chains it reports true if and only if every block at position
`i ≥ 1` has a stored hash equal to its recomputed hash, a `previous_hash`
equal to the stored hash of block `i-1`, only valid transactions, and a
validator authorized in the current validator table; consequently, if some
block at position `i ≥ 1` has a validator that is not currently authorized
(and no transaction check panics), a subsequent `validate_chain` call
returns false even though that block's hash and links are untouched. -/
theorem validate_chain_spec (C : Crypto) (registry : List (String × String))
    (bc : Blockchain C) :
    (bc.chain.length ≤ 1 →
      Blockchain.validate_chain C registry bc = some true) ∧
    (Blockchain.validate_chain C registry bc = some true ↔
      ∀ i, (hi : i < bc.chain.length) → 1 ≤ i →
        ((bc.chain.get ⟨i, hi⟩).hash =
            Block.calculate_hash C (bc.chain.get ⟨i, hi⟩) ∧
          (bc.chain.get ⟨i, hi⟩).previous_hash =
            (bc.chain.get ⟨i - 1, by omega⟩).hash ∧
          (∀ tx ∈ (bc.chain.get ⟨i, hi⟩).transactions,
            Transaction.is_valid C registry tx = some true) ∧
          alistLookupD bc.validators (bc.chain.get ⟨i, hi⟩).validator false =
            true)) ∧
    ((∀ b ∈ bc.chain, ∀ tx ∈ b.transactions,
        Transaction.is_valid C registry tx ≠ none) →
      ∀ i, (hi : i < bc.chain.length) → 1 ≤ i →
        alistLookupD bc.validators (bc.chain.get ⟨i, hi⟩).validator false =
          false →
        Blockchain.validate_chain C registry bc = some false) := by
  have key : Blockchain.validate_chain C registry bc = some true ↔
      ∀ i, (hi : i < bc.chain.length) → 1 ≤ i →
        blockOk C registry bc.validators
          (bc.chain.get ⟨i - 1, by omega⟩) (bc.chain.get ⟨i, hi⟩) := by
    cases hc : bc.chain with
    | nil =>
      simp only [Blockchain.validate_chain, hc]
      constructor
      · intro _ i hi h1
        exact absurd hi (by simp)
      · intro _; trivial
    | cons b0 rest =>
      simp only [Blockchain.validate_chain, hc]
      rw [validateFrom_eq_true_iff, List.chain_iff_get]
      have hlen : (b0 :: rest).length = rest.length + 1 := rfl
      constructor
      · rintro ⟨h0, hstep⟩ i hi h1
        cases i with
        | zero => omega
        | succ i' =>
          cases i' with
          | zero => exact h0 (by omega)
          | succ j => exact hstep j (by omega)
      · intro h
        constructor
        · intro h0
          exact h 1 (by omega) (by omega)
        · intro i hI
          exact h (i + 2) (by omega) (by omega)
  refine ⟨?_, key, ?_⟩
  · intro hle
    cases hc : bc.chain with
    | nil => simp [Blockchain.validate_chain, hc]
    | cons b0 rest =>
      have : rest = [] := by
        rw [hc] at hle
        simp only [List.length_cons] at hle
        exact List.length_eq_zero.mp (by omega)
      subst this
      simp [Blockchain.validate_chain, hc, validateFrom]
  · intro hTot i hi h1 hrev
    cases hv : Blockchain.validate_chain C registry bc with
    | none =>
      exfalso
      cases hc : bc.chain with
      | nil =>
        unfold Blockchain.validate_chain at hv
        rw [hc] at hv
        simp at hv
      | cons b0 rest =>
        have := validateFrom_ne_none C registry bc.validators b0 rest
          (fun b hb => hTot b (by rw [hc]; simp [hb]))
        unfold Blockchain.validate_chain at hv
        rw [hc] at hv
        exact this hv
    | some b =>
      cases b
      · rfl
      · exfalso
        have := (key.1 hv) i hi h1
        rw [this.2.2.2] at hrev
        simp at hrev

/-- Witness for C1: the freshly initialised ledger `bcNew` has a chain of
length 1 and is therefore reported valid. -/
theorem validate_chain_witness :
    Blockchain.validate_chain testCrypto [] bcNew = some true :=
  (validate_chain_spec testCrypto [] bcNew).1 (by decide)

/-- Operation `add_transaction` never changes the committed chain. -/
theorem add_transaction_chain (C : Crypto) (bc : Blockchain C)
    (tx : Transaction) (kp : KeyPair C) :
    (Blockchain.add_transaction C bc tx kp).2.chain = bc.chain := by
  simp only [Blockchain.add_transaction]
  split
  · split
    · rfl
    · split <;> rfl
  · rfl

/-- Operation `add_validator` never changes the committed chain. -/
theorem add_validator_chain (C : Crypto) (bc : Blockchain C)
    (a : String) :
    (Blockchain.add_validator C bc a).2.chain = bc.chain := by
  unfold Blockchain.add_validator
  split <;> rfl

/-- Operation `create_block` only ever appends to the committed chain. -/
theorem create_block_chain_ext (C : Crypto) (bc : Blockchain C)
    (v : String) (now : Nat) (r : Except String Block) (bc' : Blockchain C)
    (h : Blockchain.create_block C bc v now = some (r, bc')) :
    ∃ ext, bc'.chain = bc.chain ++ ext := by
  unfold Blockchain.create_block at h
  split at h
  · simp only [Option.some.injEq, Prod.mk.injEq] at h
    exact ⟨[], by rw [← h.2]; simp⟩
  · split at h
    · simp only [Option.some.injEq, Prod.mk.injEq] at h
      exact ⟨[], by rw [← h.2]; simp⟩
    · cases hg : Blockchain.get_latest_block C bc with
      | none => rw [hg] at h; simp at h
      | some latest =>
        rw [hg] at h
        simp only [Option.some.injEq, Prod.mk.injEq] at h
        refine ⟨[Block.new C bc.chain.length bc.pending_transactions
          latest.hash v now], ?_⟩
        rw [← h.2]
        simp [Blockchain.apply_transactions]

/-- A nonempty list has a last element. -/
theorem getLast?_isSome_of_ne_nil {α : Type} {l : List α} (h : l ≠ []) :
    l.getLast?.isSome = true := by
  cases l with
  | nil => exact absurd rfl h
  | cons a t => rfl

/-- Claim C10: every state reachable from `Blockchain::new` through the
public operations has a nonempty chain, so `get_latest_block`'s expect
never fires; moreover the mutating operations never remove or replace
existing blocks — the pool operations leave the chain untouched and
`create_block` at most appends. -/
theorem chain_invariant (C : Crypto) (bc : Blockchain C)
    (h : Reachable C bc) :
    bc.chain ≠ [] ∧
    (Blockchain.get_latest_block C bc).isSome = true ∧
    (∀ tx kp, (Blockchain.add_transaction C bc tx kp).2.chain = bc.chain) ∧
    (∀ kp, (Blockchain.register_keypair C bc kp).2.chain = bc.chain) ∧
    (∀ a, (Blockchain.add_validator C bc a).2.chain = bc.chain) ∧
    (∀ v now r bc', Blockchain.create_block C bc v now = some (r, bc') →
      ∃ ext, bc'.chain = bc.chain ++ ext) := by
  have hne : bc.chain ≠ [] := by
    induction h with
    | new ga t1 t2 =>
      simp [Blockchain.new, Blockchain.create_genesis_block]
    | add_transaction tx kp hr ih =>
      rw [add_transaction_chain]; exact ih
    | register_keypair kp hr ih =>
      exact ih
    | add_validator a hr ih =>
      rw [add_validator_chain]; exact ih
    | create_block v now hr hcb ih =>
      obtain ⟨ext, he⟩ := create_block_chain_ext _ _ _ _ _ _ hcb
      rw [he]
      intro hnil
      exact ih (List.append_eq_nil.mp hnil).1
  exact ⟨hne, getLast?_isSome_of_ne_nil hne,
    fun tx kp => add_transaction_chain C bc tx kp,
    fun kp => rfl,
    fun a => add_validator_chain C bc a,
    fun v now r bc' hcb => create_block_chain_ext C bc v now r bc' hcb⟩

/-- Witness for C10: the freshly initialised ledger `bcNew` is reachable
and indeed has a nonempty chain with a retrievable latest block. -/
theorem chain_invariant_witness :
    bcNew.chain ≠ [] ∧
    (Blockchain.get_latest_block testCrypto bcNew).isSome = true :=
  have h := chain_invariant testCrypto bcNew (Reachable.new "gaddr" 5 6)
  ⟨h.1, h.2.1⟩

/-- Distinct decimal digit values yield distinct digit characters. -/
theorem digitCh_inj : ∀ d1, d1 < 10 → ∀ d2, d2 < 10 →
    Char.ofNat (48 + d1) = Char.ofNat (48 + d2) → d1 = d2 := by decide

/-- Mapping digit values below 10 to characters is injective on lists. -/
theorem map_digitCh_inj : ∀ (l1 l2 : List Nat), (∀ d ∈ l1, d < 10) →
    (∀ d ∈ l2, d < 10) →
    l1.map (fun d => Char.ofNat (48 + d)) =
      l2.map (fun d => Char.ofNat (48 + d)) →
    l1 = l2
  | [], [], _, _, _ => rfl
  | [], _ :: _, _, _, h => by simp at h
  | _ :: _, [], _, _, h => by simp at h
  | d1 :: t1, d2 :: t2, h1, h2, h => by
    simp only [List.map_cons, List.cons.injEq] at h
    have hd := digitCh_inj d1 (h1 d1 (by simp)) d2 (h2 d2 (by simp)) h.1
    have ht := map_digitCh_inj t1 t2 (fun d hd' => h1 d (by simp [hd']))
      (fun d hd' => h2 d (by simp [hd'])) h.2
    rw [hd, ht]

/-- Strings with equal character data are equal. -/
theorem string_data_inj {s t : String} (h : s.data = t.data) : s = t := by
  cases s; cases t; exact congrArg String.mk h

/-- A nonzero natural never renders as the string of zero. -/
theorem natStr_pos_ne_zero_str (n : Nat) (hn : n ≠ 0) :
    String.mk (((Nat.digits 10 n).reverse).map
      (fun d => Char.ofNat (48 + d))) ≠ "0" := by
  intro h
  have hdata : ((Nat.digits 10 n).reverse).map
      (fun d => Char.ofNat (48 + d)) = ['0'] := congrArg String.data h
  cases hrev : (Nat.digits 10 n).reverse with
  | nil => rw [hrev] at hdata; simp at hdata
  | cons d t =>
    cases t with
    | nil =>
      rw [hrev] at hdata
      simp only [List.map_cons, List.map_nil, List.cons.injEq] at hdata
      have hdlt : d < 10 := Nat.digits_lt_base (by norm_num)
        (List.mem_reverse.mp (by rw [hrev]; simp))
      have hd0 : d = 0 := digitCh_inj d hdlt 0 (by norm_num)
        (by rw [hdata.1])
      have hdig : Nat.digits 10 n = [0] := by
        have : Nat.digits 10 n = [d] := by
          rw [← List.reverse_reverse (Nat.digits 10 n), hrev]
          rfl
        rw [this, hd0]
      have : n = 0 := by
        have h1 := Nat.ofDigits_digits 10 n
        rw [hdig] at h1
        simpa [Nat.ofDigits] using h1.symm
      exact hn this
    | cons e t2 =>
      rw [hrev] at hdata
      have := congrArg List.length hdata
      simp at this

/-- The decimal rendering of naturals is injective. -/
theorem natStr_inj (m n : Nat) (h : natStr m = natStr n) : m = n := by
  by_cases hm : m = 0 <;> by_cases hn : n = 0
  · rw [hm, hn]
  · exfalso
    rw [hm] at h
    unfold natStr at h
    rw [if_pos rfl, if_neg hn] at h
    exact natStr_pos_ne_zero_str n hn h.symm
  · exfalso
    rw [hn] at h
    unfold natStr at h
    rw [if_neg hm, if_pos rfl] at h
    exact natStr_pos_ne_zero_str m hm h
  · unfold natStr at h
    rw [if_neg hm, if_neg hn] at h
    have hd : ((Nat.digits 10 m).reverse).map (fun d => Char.ofNat (48 + d)) =
        ((Nat.digits 10 n).reverse).map (fun d => Char.ofNat (48 + d)) :=
      congrArg String.data h
    have hrev := map_digitCh_inj _ _
      (fun d hd' => Nat.digits_lt_base (by norm_num) (List.mem_reverse.mp hd'))
      (fun d hd' => Nat.digits_lt_base (by norm_num) (List.mem_reverse.mp hd'))
      hd
    have hdig := List.reverse_injective hrev
    calc m = Nat.ofDigits 10 (Nat.digits 10 m) :=
        (Nat.ofDigits_digits 10 m).symm
      _ = Nat.ofDigits 10 (Nat.digits 10 n) := by rw [hdig]
      _ = n := Nat.ofDigits_digits 10 n

/-- Claim C8: the block hash is a pure deterministic function of the five
hashed fields — equal `(index, timestamp, transactions, previous_hash,
validator)` yield equal hashes — and, at equal timestamps, two blocks
differing in exactly one of index, transactions, previous hash or
validator hash differently, provided the digest and the transaction-list
serialisation are collision-free on the inputs involved. -/
theorem block_hash_spec (C : Crypto) (b1 b2 : Block)
    (hts : b1.timestamp = b2.timestamp)
    (hser : C.serTxs b1.transactions = C.serTxs b2.transactions →
      b1.transactions = b2.transactions)
    (hsha : C.sha256hex (Block.hashInput C b1) =
        C.sha256hex (Block.hashInput C b2) →
      Block.hashInput C b1 = Block.hashInput C b2) :
    ((b1.index = b2.index ∧ b1.transactions = b2.transactions ∧
      b1.previous_hash = b2.previous_hash ∧ b1.validator = b2.validator) →
      Block.calculate_hash C b1 = Block.calculate_hash C b2) ∧
    (((b1.index ≠ b2.index ∧ b1.transactions = b2.transactions ∧
        b1.previous_hash = b2.previous_hash ∧ b1.validator = b2.validator) ∨
      (b1.index = b2.index ∧ b1.transactions ≠ b2.transactions ∧
        b1.previous_hash = b2.previous_hash ∧ b1.validator = b2.validator) ∨
      (b1.index = b2.index ∧ b1.transactions = b2.transactions ∧
        b1.previous_hash ≠ b2.previous_hash ∧ b1.validator = b2.validator) ∨
      (b1.index = b2.index ∧ b1.transactions = b2.transactions ∧
        b1.previous_hash = b2.previous_hash ∧ b1.validator ≠ b2.validator)) →
      Block.calculate_hash C b1 ≠ Block.calculate_hash C b2) := by
  constructor
  · rintro ⟨h1, h2, h3, h4⟩
    unfold Block.calculate_hash Block.hashInput
    rw [h1, h2, h3, h4, hts]
  · intro hcase heq
    have hinput : Block.hashInput C b1 = Block.hashInput C b2 := hsha heq
    have hd := congrArg String.data hinput
    simp only [Block.hashInput, String.data_append, List.append_assoc] at hd
    rcases hcase with ⟨h1, h2, h3, h4⟩ | ⟨h1, h2, h3, h4⟩ |
      ⟨h1, h2, h3, h4⟩ | ⟨h1, h2, h3, h4⟩
    · rw [hts, h2, h3, h4] at hd
      exact h1 (natStr_inj _ _ (string_data_inj (List.append_cancel_right hd)))
    · rw [hts, h1, h3, h4] at hd
      have hmid := List.append_cancel_left (List.append_cancel_left hd)
      exact h2 (hser (string_data_inj (List.append_cancel_right hmid)))
    · rw [hts, h1, h2, h4] at hd
      have hmid := List.append_cancel_left (List.append_cancel_left
        (List.append_cancel_left hd))
      exact h3 (string_data_inj (List.append_cancel_right hmid))
    · rw [hts, h1, h2, h3] at hd
      have hmid := List.append_cancel_left (List.append_cancel_left
        (List.append_cancel_left (List.append_cancel_left hd)))
      exact h4 (string_data_inj hmid)

/-- Witness for C8: the two concrete blocks `blkA` and `blkB`, equal in
every hashed field except the validator, receive different hashes under the
(injective) test digest. -/
theorem block_hash_witness :
    Block.calculate_hash testCrypto blkA ≠ Block.calculate_hash testCrypto blkB :=
  (block_hash_spec testCrypto blkA blkB rfl (fun _ => rfl) (fun h => h)).2
    (Or.inr (Or.inr (Or.inr ⟨rfl, rfl, rfl, by decide⟩)))

/-- Decoding a hex digit character recovers the digit value. -/
theorem hexDigitVal_hexDigitCh : ∀ d, d < 16 →
    hexDigitVal (hexDigitCh d) = some d := by decide

/-- Hex digit characters are never the colon separator. -/
theorem hexDigitCh_ne_colon : ∀ d, d < 16 → hexDigitCh d ≠ ':' := by decide

/-- The colon separator never occurs in a hex encoding of bytes. -/
theorem hexEncode_no_colon (bs : List Nat) (h : ∀ b ∈ bs, b < 256) :
    ':' ∉ (hexEncode bs).data := by
  intro hc
  unfold hexEncode at hc
  rw [List.mem_flatten] at hc
  obtain ⟨l, hl, hcl⟩ := hc
  rw [List.mem_map] at hl
  obtain ⟨b, hb, hbl⟩ := hl
  have h1 : b / 16 < 16 :=
    (Nat.div_lt_iff_lt_mul (by norm_num)).mpr (by have := h b hb; omega)
  have h2 : b % 16 < 16 := Nat.mod_lt _ (by norm_num)
  rw [← hbl] at hcl
  simp only [List.mem_cons, List.not_mem_nil, or_false] at hcl
  rcases hcl with hcl | hcl
  · exact hexDigitCh_ne_colon _ h1 hcl.symm
  · exact hexDigitCh_ne_colon _ h2 hcl.symm

/-- Hex decoding inverts hex encoding on genuine byte lists. -/
theorem hexDecode_hexEncode (bs : List Nat) (h : ∀ b ∈ bs, b < 256) :
    hexDecode (hexEncode bs) = some bs := by
  unfold hexDecode hexEncode
  show hexDecodeList
    ((bs.map (fun b => [hexDigitCh (b / 16), hexDigitCh (b % 16)])).flatten) =
      some bs
  induction bs with
  | nil => rfl
  | cons b rest ih =>
    have hb := h b (by simp)
    have h1 : b / 16 < 16 :=
      (Nat.div_lt_iff_lt_mul (by norm_num)).mpr (by omega)
    have h2 : b % 16 < 16 := Nat.mod_lt _ (by norm_num)
    simp only [List.map_cons, List.flatten_cons, List.cons_append,
      List.nil_append]
    unfold hexDecodeList
    rw [hexDigitVal_hexDigitCh _ h1, hexDigitVal_hexDigitCh _ h2,
      ih (fun x hx => h x (by simp [hx]))]
    simp [Nat.div_add_mod]

/-- A separator-free character list splits into itself alone. -/
theorem splitCharList_no_sep (c : Char) (l : List Char) (h : c ∉ l) :
    splitCharList c l = [l] := by
  induction l with
  | nil => rfl
  | cons x xs ih =>
    unfold splitCharList
    have hx : ¬ x = c := by rintro rfl; exact h (List.mem_cons_self x xs)
    rw [if_neg hx, ih (fun hc => h (List.mem_cons_of_mem x hc))]

/-- Splitting a list around a single separator occurrence yields the two
separator-free halves. -/
theorem splitCharList_append (c : Char) (a b : List Char) (ha : c ∉ a)
    (hb : c ∉ b) : splitCharList c (a ++ c :: b) = [a, b] := by
  induction a with
  | nil =>
    simp only [List.nil_append]
    unfold splitCharList
    rw [if_pos rfl, splitCharList_no_sep c b hb]
  | cons x xs ih =>
    have hx : ¬ x = c := by rintro rfl; exact ha (List.mem_cons_self x xs)
    simp only [List.cons_append]
    unfold splitCharList
    rw [if_neg hx, ih (fun hc => ha (List.mem_cons_of_mem x hc))]

/-- Splitting `s1 ++ ":" ++ s2` at the colon recovers the two colon-free
component strings. -/
theorem splitChar_colon (s1 s2 : String) (h1 : ':' ∉ s1.data)
    (h2 : ':' ∉ s2.data) : splitChar ':' (s1 ++ ":" ++ s2) = [s1, s2] := by
  unfold splitChar
  have hdata : (s1 ++ ":" ++ s2).data = s1.data ++ ':' :: s2.data := by
    rw [String.data_append, String.data_append]
    simp
  rw [hdata, splitCharList_append ':' _ _ h1 h2]
  rfl

/-- Inserting a fresh key into an association list appends the binding. -/
theorem alistInsert_absent {α : Type} (l : List (String × α)) (k : String)
    (v : α) (h : ∀ p ∈ l, p.1 ≠ k) : alistInsert l k v = l ++ [(k, v)] := by
  induction l with
  | nil => rfl
  | cons p rest ih =>
    obtain ⟨k', v'⟩ := p
    unfold alistInsert
    rw [if_neg (h (k', v') (by simp)), ih (fun q hq => h q (by simp [hq]))]
    rfl

/-- The keypair-merging loop of `load_from_file` restores exactly the
stored keypair list when the decoding laws hold for every entry. -/
theorem loadKeypairs_map (C : Crypto) (l : List (String × KeyPair C))
    (bc : Blockchain C)
    (hnodup : (l.map Prod.fst).Nodup)
    (hdisj : ∀ p ∈ l, ∀ q ∈ bc.keypairs, q.1 ≠ p.1)
    (hbytes : ∀ kv ∈ l, (∀ b ∈ C.secKeyBytes kv.2.secret, b < 256) ∧
      (∀ b ∈ C.pubKeyBytes kv.2.public, b < 256))
    (hpk : ∀ kv ∈ l,
      C.pubKeyFromBytes (C.pubKeyBytes kv.2.public) = some kv.2.public)
    (hsk : ∀ kv ∈ l,
      C.secKeyFromBytes (C.secKeyBytes kv.2.secret) = some kv.2.secret) :
    loadKeypairs C bc (l.map (fun kv =>
      (kv.1, hexEncode (C.secKeyBytes kv.2.secret) ++ ":" ++
        hexEncode (C.pubKeyBytes kv.2.public)))) =
      .ok { bc with keypairs := bc.keypairs ++ l } := by
  induction l generalizing bc with
  | nil => simp [loadKeypairs]
  | cons kv rest ih =>
    obtain ⟨addr, kp⟩ := kv
    have hb1 : ∀ b ∈ C.secKeyBytes kp.secret, b < 256 :=
      (hbytes (addr, kp) (by simp)).1
    have hb2 : ∀ b ∈ C.pubKeyBytes kp.public, b < 256 :=
      (hbytes (addr, kp) (by simp)).2
    have hpk' : C.pubKeyFromBytes (C.pubKeyBytes kp.public) = some kp.public :=
      hpk (addr, kp) (by simp)
    have hsk' : C.secKeyFromBytes (C.secKeyBytes kp.secret) = some kp.secret :=
      hsk (addr, kp) (by simp)
    have hsplit := splitChar_colon (hexEncode (C.secKeyBytes kp.secret))
      (hexEncode (C.pubKeyBytes kp.public))
      (hexEncode_no_colon _ hb1) (hexEncode_no_colon _ hb2)
    simp only [List.map_cons]
    unfold loadKeypairs
    rw [hsplit]
    rw [if_neg (by simp)]
    simp only [List.getD_cons_zero, List.getD_cons_succ,
      List.get?_cons_zero, List.get?_cons_succ, Option.getD_some]
    simp only [hexDecode_hexEncode (C.secKeyBytes kp.secret) hb1,
      hexDecode_hexEncode (C.pubKeyBytes kp.public) hb2, hpk', hsk']
    have hkp : (⟨kp.secret, kp.public⟩ : KeyPair C) = kp := rfl
    rw [hkp]
    rw [alistInsert_absent bc.keypairs addr _
      (fun q hq => hdisj (addr, kp) (by simp) q hq)]
    have hnodup' : (rest.map Prod.fst).Nodup := by
      simp only [List.map_cons, List.nodup_cons] at hnodup
      exact hnodup.2
    have haddr : addr ∉ rest.map Prod.fst := by
      simp only [List.map_cons, List.nodup_cons] at hnodup
      exact hnodup.1
    have hdisj' : ∀ p ∈ rest,
        ∀ q ∈ bc.keypairs ++ [(addr, kp)], q.1 ≠ p.1 := by
      intro p hp q hq
      rcases List.mem_append.mp hq with hq | hq
      · exact hdisj p (by simp [hp]) q hq
      · have : q = (addr, kp) := by simpa using hq
        rw [this]
        intro hc
        apply haddr
        have hmem := List.mem_map_of_mem Prod.fst hp
        rw [← hc] at hmem
        exact hmem
    rw [ih { bc with keypairs := bc.keypairs ++ [(addr, kp)] } hnodup' hdisj'
      (fun kv hkv => hbytes kv (by simp [hkv]))
      (fun kv hkv => hpk kv (by simp [hkv]))
      (fun kv hkv => hsk kv (by simp [hkv]))]
    simp

/-- Counterexample to claim C9 as stated: a ledger with a nonempty
in-memory public-key registry does not round-trip to an identical ledger —
after save and load the (serde-skipped) public-key registry is empty. -/
theorem save_load_counterexample :
    Blockchain.load_from_file testCrypto
      (Blockchain.save_to_file testCrypto bcPk).1
      (Blockchain.save_to_file testCrypto bcPk).2 =
      .ok { bcPk with public_keys := [] } ∧
    ({ bcPk with public_keys := [] } : Blockchain testCrypto).public_keys ≠
      bcPk.public_keys := by
  constructor
  · rfl
  · simp [bcPk]

/-- Claim C9 (amended): saving and loading restores the chain, the pending
pool, the account balances, the validator flags and the stored keypair
material bit-exactly (given faithful key-byte decoding and genuine bytes),
but the serde-skipped in-memory public-key registry is reset to empty
rather than restored. -/
theorem save_load_roundtrip (C : Crypto) (bc : Blockchain C)
    (hnodup : (bc.keypairs.map Prod.fst).Nodup)
    (hbytes : ∀ kv ∈ bc.keypairs,
      (∀ b ∈ C.secKeyBytes kv.2.secret, b < 256) ∧
      (∀ b ∈ C.pubKeyBytes kv.2.public, b < 256))
    (hpk : ∀ kv ∈ bc.keypairs,
      C.pubKeyFromBytes (C.pubKeyBytes kv.2.public) = some kv.2.public)
    (hsk : ∀ kv ∈ bc.keypairs,
      C.secKeyFromBytes (C.secKeyBytes kv.2.secret) = some kv.2.secret) :
    Blockchain.load_from_file C (Blockchain.save_to_file C bc).1
      (Blockchain.save_to_file C bc).2 =
      .ok { bc with public_keys := [] } := by
  unfold Blockchain.load_from_file Blockchain.save_to_file
  rw [loadKeypairs_map C bc.keypairs _ hnodup
    (fun p _ q hq => absurd hq (by simp)) hbytes hpk hsk]
  simp

/-- Witness for the amended C9: the concrete one-keypair ledger `bcKp`
round-trips to itself with an emptied public-key registry. -/
theorem save_load_witness :
    Blockchain.load_from_file testCrypto
      (Blockchain.save_to_file testCrypto bcKp).1
      (Blockchain.save_to_file testCrypto bcKp).2 =
      .ok { bcKp with public_keys := [] } :=
  save_load_roundtrip testCrypto bcKp (by decide) (by decide) (by decide)
    (by decide)

end SBC
